import Mathlib

/-!
Verification of the fallback prompt-decomposition heuristic (`fallbackBreakdown`
in the task-breakdown API route).  The JavaScript function is shallowly embedded
over `List Char`: each regex of the source is hand-specialised to an executable
matcher with the exact JS semantics (leftmost match, greedy quantifiers with
backtracking, `lastIndex` advancement for `/g` loops).  String lengths are
measured in UTF-16 code units as in JS (`utf16Len`), and the JS whitespace
class (`\s`, also the `trim` set) is modelled by `jsWs`.

One deliberate simplification: `String.prototype.toUpperCase()` applied to the
first character is modelled by `asciiUpper`, the ASCII letter mapping; JS
additionally uppercases non-ASCII letters, which no claim here depends on.
-/

/-- JS whitespace (`\s` character class, also the set removed by `trim`):
space separators, tab, line terminators, NBSP, BOM. -/
def jsWs (c : Char) : Bool :=
  c.toNat = 0x20 || c.toNat = 0x09 || c.toNat = 0x0A || c.toNat = 0x0B ||
  c.toNat = 0x0C || c.toNat = 0x0D || c.toNat = 0xA0 || c.toNat = 0x1680 ||
  (0x2000 ≤ c.toNat && c.toNat ≤ 0x200A) || c.toNat = 0x2028 || c.toNat = 0x2029 ||
  c.toNat = 0x202F || c.toNat = 0x205F || c.toNat = 0x3000 || c.toNat = 0xFEFF

/-- `String.prototype.trim()`: strip `jsWs` from both ends. -/
def jsTrim (l : List Char) : List Char :=
  ((l.dropWhile jsWs).reverse.dropWhile jsWs).reverse

/-- JS `String.length`: UTF-16 code units (astral code points count twice). -/
def utf16Len (l : List Char) : Nat :=
  l.foldr (fun c n => (if c.toNat ≥ 0x10000 then 2 else 1) + n) 0

/-- ASCII lower-casing of one character (identity outside `A`-`Z`). -/
def asciiLower (c : Char) : Char :=
  match c with
  | 'A' => 'a' | 'B' => 'b' | 'C' => 'c' | 'D' => 'd' | 'E' => 'e' | 'F' => 'f'
  | 'G' => 'g' | 'H' => 'h' | 'I' => 'i' | 'J' => 'j' | 'K' => 'k' | 'L' => 'l'
  | 'M' => 'm' | 'N' => 'n' | 'O' => 'o' | 'P' => 'p' | 'Q' => 'q' | 'R' => 'r'
  | 'S' => 's' | 'T' => 't' | 'U' => 'u' | 'V' => 'v' | 'W' => 'w' | 'X' => 'x'
  | 'Y' => 'y' | 'Z' => 'z' | c => c

/-- ASCII upper-casing of one character (identity outside `a`-`z`);
model of `toUpperCase` on the first character of a task. -/
def asciiUpper (c : Char) : Char :=
  match c with
  | 'a' => 'A' | 'b' => 'B' | 'c' => 'C' | 'd' => 'D' | 'e' => 'E' | 'f' => 'F'
  | 'g' => 'G' | 'h' => 'H' | 'i' => 'I' | 'j' => 'J' | 'k' => 'K' | 'l' => 'L'
  | 'm' => 'M' | 'n' => 'N' | 'o' => 'O' | 'p' => 'P' | 'q' => 'Q' | 'r' => 'R'
  | 's' => 'S' | 't' => 'T' | 'u' => 'U' | 'v' => 'V' | 'w' => 'W' | 'x' => 'X'
  | 'y' => 'Y' | 'z' => 'Z' | c => c

/-- `task.charAt(0).toUpperCase() + task.slice(1)` (cf. normalization step). -/
def capFirst : List Char → List Char
  | [] => []
  | c :: cs => asciiUpper c :: cs

/-- One step of `prompt.split(/\n+/)`: `inRun` records whether we are inside a
run of newlines (JS merges maximal `\n` runs into a single separator). -/
def splitNlGo : Bool → List Char → List Char → List (List Char)
  | _, acc, [] => [acc.reverse]
  | inRun, acc, c :: cs =>
    if c = '\n' then
      if inRun then splitNlGo true [] cs
      else acc.reverse :: splitNlGo true [] cs
    else splitNlGo false (c :: acc) cs

/-- `prompt.split(/\n+/)` (JS semantics, including empty first/last pieces). -/
def splitNl (l : List Char) : List (List Char) := splitNlGo false [] l

/-- One step of `prompt.split(/\s+/)` (used by the chunk fallback). -/
def splitWsGo : Bool → List Char → List Char → List (List Char)
  | _, acc, [] => [acc.reverse]
  | inRun, acc, c :: cs =>
    if jsWs c then
      if inRun then splitWsGo true [] cs
      else acc.reverse :: splitWsGo true [] cs
    else splitWsGo false (c :: acc) cs

/-- `prompt.split(/\s+/)` (JS semantics). -/
def splitWs (l : List Char) : List (List Char) := splitWsGo false [] l

/-- `prompt.split(/(?<=\.)\s+/)`: split at maximal whitespace runs that
immediately follow a period.  The first flag is true while consuming such a
run, the `Bool` inside `norm` records whether the previous char was `.`. -/
def splitSentGo : Bool → Bool → List Char → List Char → List (List Char)
  | false, _, acc, [] => [acc.reverse]
  | true, _, _, [] => [[]]
  | false, prevDot, acc, c :: cs =>
    if prevDot ∧ jsWs c then acc.reverse :: splitSentGo true false [] cs
    else splitSentGo false (c = '.') (c :: acc) cs
  | true, _, _, c :: cs =>
    if jsWs c then splitSentGo true false [] cs
    else splitSentGo false (c = '.') [c] cs

/-- `prompt.split(/(?<=\.)\s+/)` (sentence-split fallback). -/
def splitSent (l : List Char) : List (List Char) := splitSentGo false false [] l

/-- `words.slice(i, i + chunkSize)` grouping: `k` is the remaining capacity of
the current chunk `cur` (kept reversed). -/
def groupWords (csz : Nat) : List (List Char) → Nat → List (List Char) → List (List (List Char))
  | cur, _, [] => if cur.isEmpty then [] else [cur.reverse]
  | cur, 0, w :: ws => cur.reverse :: groupWords csz [w] (csz - 1) ws
  | cur, k + 1, w :: ws => groupWords csz (w :: cur) k ws

/-- `arr.join(' ')`. -/
def joinSp : List (List Char) → List Char
  | [] => []
  | [w] => w
  | w :: ws => w ++ ' ' :: joinSp ws

/-- Case-insensitive match of one pattern character against an input character,
as JS `/i` canonicalisation acts on the ASCII pattern characters used here. -/
def ciChar (p c : Char) : Bool := c = p || c = asciiLower p || c = asciiUpper p

/-- Match the literal pattern `pat` (case-insensitively) at the head of `s`,
returning the rest of `s` on success. -/
def ciPref : List Char → List Char → Option (List Char)
  | [], s => some s
  | _ :: _, [] => none
  | p :: ps, c :: cs => if ciChar p c then ciPref ps cs else none

/-- `\s+`: at least one whitespace char, greedily consuming the maximal run. -/
def wsPlus : List Char → Option (List Char)
  | [] => none
  | c :: cs => if jsWs c then some (cs.dropWhile jsWs) else none

/-- The trailing `\s*(.+)` of the bullet/numbered regexes, applied after the
marker.  Greedy `\s*` consumes the maximal whitespace run; if only whitespace
remains, the engine backtracks `\s*` to the last non-newline character of the
run so that `.+` can still match (yielding a one-char whitespace capture).
Returns (capture, rest after the match). -/
def afterMarkerCap (r2 : List Char) : Option (List Char × List Char) :=
  match r2.dropWhile jsWs with
  | rest2@(_ :: _) =>
    some (rest2.takeWhile (fun c => !(c == '\n')), rest2.dropWhile (fun c => !(c == '\n')))
  | [] =>
    let pre := (r2.reverse.dropWhile (fun c => c == '\n')).reverse
    if pre.isEmpty then none
    else some ((r2.drop (pre.length - 1)).takeWhile (fun c => !(c == '\n')), r2.drop pre.length)

/-- The bullet glyph class `[-*â€¢+~]` exactly as written (byte-for-byte) in
the source's `bulletPointRegex`. -/
def bulletChars : List Char := ['-', '*', 'â', '€', '¢', '+', '~']

/-- Try to match `\s*[-*â€¢+~]\s*(.+)` (the bullet regex after its leading
`\n`) at the start of `cs`.  The bullet glyph is not whitespace, so greedy
`\s*` must stop exactly at the end of the maximal whitespace run. -/
def bulletMatchAfterNl (cs : List Char) : Option (List Char × List Char) :=
  match cs.dropWhile jsWs with
  | [] => none
  | b :: r2 => if b ∈ bulletChars then afterMarkerCap r2 else none

/-- The characters of the literal `Step ` in `numberedRegex` (case-insensitive
on the letters, exact on the space). -/
def stepWordChars : List Char := ['S', 't', 'e', 'p', ' ']

/-- `:?\s*(.+)` after `Step \d+`: greedy `:?` consumes a colon when present,
backtracking to leave it for `.+` if nothing else can be captured. -/
def stepTailCap : List Char → Option (List Char × List Char)
  | ':' :: r3 => afterMarkerCap r3 <|> afterMarkerCap (':' :: r3)
  | r2d => afterMarkerCap r2d

/-- The `Step \d+:?` alternative of `numberedRegex` followed by `\s*(.+)`.
When the digits are followed by nothing usable, the engine backtracks greedy
`\d+` by one digit so `.+` can capture the last digit. -/
def stepMarkerCap (r1 : List Char) : Option (List Char × List Char) :=
  match ciPref stepWordChars r1 with
  | none => none
  | some rAfter =>
    let ds := rAfter.takeWhile Char.isDigit
    if ds.isEmpty then none
    else
      stepTailCap (rAfter.dropWhile Char.isDigit) <|>
        (if 2 ≤ ds.length then
          afterMarkerCap (ds.drop (ds.length - 1) ++ rAfter.dropWhile Char.isDigit)
        else none)

/-- The `\d+[.)]` alternative of `numberedRegex` followed by `\s*(.+)`.
Backtracking `\d+` cannot help here since `[.)]` never matches a digit. -/
def alt1Cap (r1 : List Char) : Option (List Char × List Char) :=
  let ds := r1.takeWhile Char.isDigit
  if ds.isEmpty then none
  else
    match r1.dropWhile Char.isDigit with
    | c :: rest => if c = '.' ∨ c = ')' then afterMarkerCap rest else none
    | [] => none

/-- Try to match `\s*(?:\d+[.)]|Step \d+:?)\s*(.+)` (the numbered regex after
its leading `\n`) at the start of `cs`. -/
def numberedMatchAfterNl (cs : List Char) : Option (List Char × List Char) :=
  match cs.dropWhile jsWs with
  | [] => none
  | r1h :: r1t => alt1Cap (r1h :: r1t) <|> stepMarkerCap (r1h :: r1t)

/-- The `/g` exec loop shared by the bullet and numbered scans: find each match,
push its capture trimmed when the trim is non-empty, and resume at the match
end (`lastIndex`).  `k` is the number of characters still to skip before
scanning resumes; a match can only start at a `\n`. -/
def scanGo (m : List Char → Option (List Char × List Char)) : Nat → List Char → List (List Char)
  | _, [] => []
  | k + 1, _ :: cs => scanGo m k cs
  | 0, c :: cs =>
    if c = '\n' then
      match m cs with
      | some (cap, rest) =>
        (if 0 < utf16Len (jsTrim cap) then [jsTrim cap] else []) ++
          scanGo m (cs.length - rest.length) cs
      | none => scanGo m 0 cs
    else scanGo m 0 cs

/-- `[,:]?\s+` after a separator word: greedy `[,:]?` takes a comma/colon when
one is present, but `\s+` must still find at least one whitespace char. -/
def afterWord : List Char → Option (List Char)
  | [] => none
  | c :: r3 =>
    if c = ',' ∨ c = ':' then
      match r3 with
      | d :: _ => if jsWs d then some (r3.dropWhile jsWs) else none
      | [] => none
    else if jsWs c then some (r3.dropWhile jsWs) else none

/-- The part of a separator regex after its leading `(?:\.|\n)`:
`\s*(?:Word|Alt)[,:]?\s+`.  Word alternatives are tried in regex order, each
continued through `[,:]?\s+` (faithful alternation backtracking). -/
def sepTail (alts : List (List Char)) (cs : List Char) : Option (List Char) :=
  let r := cs.dropWhile jsWs
  alts.findSome? (fun alt => (ciPref alt r).bind afterWord)

/-- `remainingPrompt.match(separator)`: leftmost match.  A match must start at
a `.` or `\n`; `pre` accumulates (reversed) the characters already passed, so
that `substring(0, match.index + 1)` can be returned on success together with
`substring(match.index + match[0].length)`. -/
def findSepGo (alts : List (List Char)) : List Char → List Char → Option (List Char × List Char)
  | _, [] => none
  | pre, c :: cs =>
    if c = '.' ∨ c = '\n' then
      match sepTail alts cs with
      | some rest => some ((c :: pre).reverse, rest)
      | none => findSepGo alts (c :: pre) cs
    else findSepGo alts (c :: pre) cs

/-- Leftmost match of one separator regex: returns
(`substring(0, index + 1)`, `substring(index + match[0].length)`). -/
def findSep (alts : List (List Char)) (s : List Char) : Option (List Char × List Char) :=
  findSepGo alts [] s

/-- The 17 separator word lists of `taskSeparators`, in source order. -/
def sepSeparators : List (List (List Char)) :=
  [["First".data, "1st".data], ["Second".data, "2nd".data], ["Third".data, "3rd".data],
   ["Fourth".data, "4th".data], ["Fifth".data, "5th".data], ["Sixth".data, "6th".data],
   ["Seventh".data, "7th".data], ["Eighth".data, "8th".data], ["Ninth".data, "9th".data],
   ["Tenth".data, "10th".data], ["Next".data], ["Then".data], ["Finally".data],
   ["Additionally".data], ["Moreover".data], ["Furthermore".data], ["Also".data]]

/-- One iteration of the `for (const separator of taskSeparators)` loop:
on a match, push the trimmed before-text when it is non-empty, not already
collected, and longer than 10 units, and always advance `remainingPrompt`. -/
def sepStep (st : List (List Char) × List Char) (alts : List (List Char)) :
    List (List Char) × List Char :=
  match findSep alts st.2 with
  | none => st
  | some (before, after) =>
    (if jsTrim before ≠ [] ∧ jsTrim before ∉ st.1 ∧ 10 < utf16Len (jsTrim before)
     then st.1 ++ [jsTrim before] else st.1, after)

/-- The separator-cascade pass: fold the 17 separators over
(`tasks`, `remainingPrompt`), starting from `([], prompt)`. -/
def sepPass (p : List Char) : List (List Char) × List Char :=
  sepSeparators.foldl sepStep ([], p)

/-- The noun alternatives `(?:task|step|part|phase|stage)` of the keyword
regex. -/
def kwNouns : List (List Char) :=
  ["task".data, "step".data, "part".data, "phase".data, "stage".data]

/-- The optional article alternatives `(?:The|A|This|Your)`. -/
def kwArticles : List (List Char) := ["The".data, "A".data, "This".data, "Your".data]

/-- The verb alternatives `(?:is|will be)`. -/
def kwIsWill : List (List Char) := ["is".data, "will be".data]

/-- The modal alternatives `(?:need|should|must|have to)` after `You`. -/
def kwVerbs : List (List Char) :=
  ["need".data, "should".data, "must".data, "have to".data]

/-- `(?:task|step|part|phase|stage)\s+(?:is|will be)\s+to\s+`: each
alternative is continued through the whole rest of the pattern, which is
exactly ordered-alternation backtracking. -/
def kwNounTail (s : List Char) : Option (List Char) :=
  kwNouns.findSome? fun n =>
    (ciPref n s).bind fun s1 =>
    (wsPlus s1).bind fun s2 =>
    kwIsWill.findSome? fun v =>
      (ciPref v s2).bind fun s3 =>
      (wsPlus s3).bind fun s4 =>
      (ciPref ("to".data) s4).bind fun s5 =>
      wsPlus s5

/-- The part of `taskPhraseRegex` after its leading `(?:\.|\n)`: `\s*` then
either the (optionally article-prefixed) noun phrase, or
`You\s+(?:need|should|must|have to)\s+`.  Returns the rest of the input after
the full match. -/
def kwTail (cs : List Char) : Option (List Char) :=
  let r := cs.dropWhile jsWs
  ((kwArticles.findSome? fun a =>
      (ciPref a r).bind fun r1 =>
      (wsPlus r1).bind fun r2 =>
      kwNounTail r2) <|> kwNounTail r) <|>
  ((ciPref ("You".data) r).bind fun r1 =>
    (wsPlus r1).bind fun r2 =>
    kwVerbs.findSome? fun v =>
      (ciPref v r2).bind fun r3 =>
      wsPlus r3)

/-- `substring(matchEnd, indexOf('.', matchEnd) + 1)` relative to the suffix
at the match end: everything up to and including the next period, or the whole
rest when there is none. -/
def uptoDotIncl (l : List Char) : List Char :=
  let pre := l.takeWhile (fun c => !(c == '.'))
  if pre.length = l.length then l else pre ++ ['.']

/-- The `taskPhraseRegex.exec` loop over the original prompt: at each match,
extract the phrase up to the next period, trim it, and push it when it is
non-empty, longer than 10 units and not already collected; resume scanning at
the match end.  `ts` is the task list shared with the separator pass. -/
def kwScanGo : List (List Char) → Nat → List Char → List (List Char)
  | ts, _, [] => ts
  | ts, k + 1, _ :: cs => kwScanGo ts k cs
  | ts, 0, c :: cs =>
    if c = '.' ∨ c = '\n' then
      match kwTail cs with
      | some rest =>
        kwScanGo
          (if jsTrim (uptoDotIncl rest) ≠ [] ∧ 10 < utf16Len (jsTrim (uptoDotIncl rest)) ∧
              jsTrim (uptoDotIncl rest) ∉ ts
           then ts ++ [jsTrim (uptoDotIncl rest)] else ts)
          (cs.length - rest.length) cs
      | none => kwScanGo ts 0 cs
    else kwScanGo ts 0 cs

/-- Tasks collected by the separator cascade followed by the keyword-phrase
pass (which scans the original prompt but appends to the separator tasks). -/
def sepKwTasks (p : List Char) : List (List Char) := kwScanGo (sepPass p).1 0 p

/-- `remainingPrompt` left after the separator cascade. -/
def sepRemaining (p : List Char) : List Char := (sepPass p).2

/-- `if (remainingPrompt.trim() && remainingPrompt.length > 10)` — append the
trimmed remainder as a final task (note: the length test is on the untrimmed
remainder). -/
def afterTailTasks (p : List Char) : List (List Char) :=
  if jsTrim (sepRemaining p) ≠ [] ∧ 10 < utf16Len (sepRemaining p)
  then sepKwTasks p ++ [jsTrim (sepRemaining p)] else sepKwTasks p

/-- Sentence-split fallback: sentences of length > 15 after trimming. -/
def sentenceTasks (p : List Char) : List (List Char) :=
  ((splitSent p).filter (fun s => 15 < utf16Len (jsTrim s))).map jsTrim

/-- Chunk fallback: split into words, `chunkSize = max(5, floor(words/3))`,
join each chunk with single spaces, keep chunks with non-empty trim. -/
def chunkTasks (p : List Char) : List (List Char) :=
  ((groupWords (max 5 ((splitWs p).length / 3)) [] (max 5 ((splitWs p).length / 3))
      (splitWs p)).map joinSp).filter (fun ch => 0 < utf16Len (jsTrim ch))

/-- The task list just before normalization: separator/keyword/tail output,
replaced by the sentence split when it has at most one element, replaced in
turn by the chunk fallback when still at most one element. -/
def preNormTasks (p : List Char) : List (List Char) :=
  if (if (afterTailTasks p).length ≤ 1 then sentenceTasks p else afterTailTasks p).length ≤ 1
  then chunkTasks p
  else if (afterTailTasks p).length ≤ 1 then sentenceTasks p else afterTailTasks p

/-- Normalization: `tasks.map(trim).filter(length > 0).map(capitalize)`. -/
def normalizeTasks (ts : List (List Char)) : List (List Char) :=
  ((ts.map jsTrim).filter (fun t => 0 < utf16Len t)).map capFirst

/-- Everything after the three early-return branches: separator cascade,
keyword pass, remainder tail, sentence and chunk fallbacks, normalization,
the bound to `maxTasks = 5`, and the absolute fallback to the raw prompt. -/
def restOfPipeline (p : List Char) : List (List Char) :=
  if (if 5 < (normalizeTasks (preNormTasks p)).length
      then (normalizeTasks (preNormTasks p)).take 5
      else normalizeTasks (preNormTasks p)).length = 0
  then [p]
  else if 5 < (normalizeTasks (preNormTasks p)).length
       then (normalizeTasks (preNormTasks p)).take 5
       else normalizeTasks (preNormTasks p)

/-- The non-blank lines of `prompt.split(/\n+/)` (before trimming). -/
def nonBlankLines (p : List Char) : List (List Char) :=
  (splitNl p).filter (fun l => 0 < utf16Len (jsTrim l))

/-- `fallbackBreakdown(prompt)`, as a function to the list of `task` strings
(the returned descriptors carry no `subtasks` on this path). -/
def fallbackBreakdown (p : List Char) : List (List Char) :=
  if 2 ≤ ((nonBlankLines p).map jsTrim).length then (nonBlankLines p).map jsTrim
  else if 2 ≤ (scanGo bulletMatchAfterNl 0 p).length then
    (scanGo bulletMatchAfterNl 0 p).filter (fun pt => 5 < utf16Len pt)
  else if 2 ≤ (scanGo numberedMatchAfterNl 0 p).length then
    (scanGo numberedMatchAfterNl 0 p).filter (fun pt => 5 < utf16Len pt)
  else restOfPipeline p

/-- `fallbackBreakdown` with the bullet-point and numbered-list branches
removed — the comparison function for the dead-code claim. -/
def fallbackBreakdownNB (p : List Char) : List (List Char) :=
  if 2 ≤ ((nonBlankLines p).map jsTrim).length then (nonBlankLines p).map jsTrim
  else restOfPipeline p

/-- `fallbackBreakdown` on `String`s. -/
def fallbackBreakdownS (s : String) : List String :=
  (fallbackBreakdown s.data).map List.asString

/-! ### Basic properties of the string primitives -/

theorem utf16Len_pos_iff (l : List Char) : 0 < utf16Len l ↔ l ≠ [] := by
  cases l with
  | nil => simp [utf16Len]
  | cons c cs =>
    simp only [utf16Len, List.foldr_cons, ne_eq, reduceCtorEq, not_false_eq_true, iff_true]
    split <;> omega

theorem utf16Len_append (a b : List Char) :
    utf16Len (a ++ b) = utf16Len a + utf16Len b := by
  induction a with
  | nil => simp [utf16Len]
  | cons c cs ih => simp [utf16Len, List.foldr_cons] at ih ⊢; omega

theorem utf16Len_reverse (l : List Char) : utf16Len l.reverse = utf16Len l := by
  induction l with
  | nil => rfl
  | cons c cs ih =>
    rw [List.reverse_cons, utf16Len_append, ih]
    simp only [utf16Len, List.foldr_cons, List.foldr_nil]
    omega

theorem utf16Len_dropWhile_le (p : Char → Bool) (l : List Char) :
    utf16Len (l.dropWhile p) ≤ utf16Len l := by
  induction l with
  | nil => simp
  | cons c cs ih =>
    rw [List.dropWhile_cons]
    split
    · refine ih.trans ?_
      simp only [utf16Len, List.foldr_cons]
      omega
    · exact Nat.le_refl _

theorem utf16Len_jsTrim_le (l : List Char) : utf16Len (jsTrim l) ≤ utf16Len l := by
  unfold jsTrim
  calc utf16Len ((l.dropWhile jsWs).reverse.dropWhile jsWs).reverse
      = utf16Len ((l.dropWhile jsWs).reverse.dropWhile jsWs) := utf16Len_reverse _
    _ ≤ utf16Len (l.dropWhile jsWs).reverse := utf16Len_dropWhile_le _ _
    _ = utf16Len (l.dropWhile jsWs) := utf16Len_reverse _
    _ ≤ utf16Len l := utf16Len_dropWhile_le _ _

theorem jsWs_asciiUpper (c : Char) : jsWs (asciiUpper c) = jsWs c := by
  rw [asciiUpper.eq_def]
  split <;> first | decide | rfl

theorem asciiUpper_idem (c : Char) : asciiUpper (asciiUpper c) = asciiUpper c := by
  nth_rewrite 2 [asciiUpper.eq_def]
  split <;> first | decide | rfl

theorem dropWhile_cons_false {p : Char → Bool} {l : List Char} {c : Char} {t : List Char}
    (h : l.dropWhile p = c :: t) : p c = false := by
  have hw := List.head_dropWhile_not p l (by simp [h])
  simp only [h, List.head_cons] at hw
  exact hw

theorem dropWhile_fix {p : Char → Bool} {l : List Char} :
    (l.dropWhile p).dropWhile p = l.dropWhile p := by
  cases hl : l.dropWhile p with
  | nil => rfl
  | cons c t => exact List.dropWhile_cons_of_neg (by simp [dropWhile_cons_false hl])

theorem jsTrim_eq_nil_iff (l : List Char) : jsTrim l = [] ↔ ∀ c ∈ l, jsWs c = true := by
  unfold jsTrim
  rw [List.reverse_eq_nil_iff, List.dropWhile_eq_nil_iff]
  constructor
  · intro h c hc
    have hc2 : c ∈ l.takeWhile jsWs ++ l.dropWhile jsWs := by
      rw [List.takeWhile_append_dropWhile]
      exact hc
    rcases List.mem_append.mp hc2 with h1 | h1
    · exact List.mem_takeWhile_imp h1
    · exact h c (List.mem_reverse.mpr h1)
  · intro h c hc
    have hc3 : c ∈ l.dropWhile jsWs := List.mem_reverse.mp hc
    refine h c ?_
    rw [← List.takeWhile_append_dropWhile (p := jsWs) (l := l)]
    exact List.mem_append.mpr (Or.inr hc3)

theorem jsTrim_ne_nil_iff (l : List Char) :
    jsTrim l ≠ [] ↔ ∃ c ∈ l, jsWs c = false := by
  rw [ne_eq, jsTrim_eq_nil_iff]
  push_neg
  constructor
  · rintro ⟨c, hc, hw⟩
    exact ⟨c, hc, by simpa using hw⟩
  · rintro ⟨c, hc, hw⟩
    exact ⟨c, hc, by simp [hw]⟩

theorem jsTrim_reverse_eq (l : List Char) :
    (jsTrim l).reverse = (l.dropWhile jsWs).reverse.dropWhile jsWs := by
  unfold jsTrim
  rw [List.reverse_reverse]

theorem jsTrim_split (l : List Char) :
    l.dropWhile jsWs = jsTrim l ++ ((l.dropWhile jsWs).reverse.takeWhile jsWs).reverse := by
  have h2 := congrArg List.reverse
    (List.takeWhile_append_dropWhile (p := jsWs) (l := (l.dropWhile jsWs).reverse))
  rw [List.reverse_append, List.reverse_reverse] at h2
  exact h2.symm

theorem jsTrim_head_false {l : List Char} {c : Char} {t : List Char}
    (h : jsTrim l = c :: t) : jsWs c = false := by
  have hA := jsTrim_split l
  rw [h] at hA
  simp only [List.cons_append] at hA
  exact dropWhile_cons_false hA

theorem jsTrim_dropWhile_fix (l : List Char) :
    (jsTrim l).dropWhile jsWs = jsTrim l := by
  cases h : jsTrim l with
  | nil => rfl
  | cons c t => exact List.dropWhile_cons_of_neg (by simp [jsTrim_head_false h])

theorem jsTrim_reverse_dropWhile_fix (l : List Char) :
    (jsTrim l).reverse.dropWhile jsWs = (jsTrim l).reverse := by
  rw [jsTrim_reverse_eq]
  exact dropWhile_fix

theorem jsTrim_eq_self_of {u : List Char} (h1 : u.dropWhile jsWs = u)
    (h2 : u.reverse.dropWhile jsWs = u.reverse) : jsTrim u = u := by
  unfold jsTrim
  rw [h1, h2, List.reverse_reverse]

theorem jsTrim_idem (l : List Char) : jsTrim (jsTrim l) = jsTrim l :=
  jsTrim_eq_self_of (jsTrim_dropWhile_fix l) (jsTrim_reverse_dropWhile_fix l)

/-! ### Normalization: trim, filter empties, capitalise the first character -/

theorem dropWhile_cons_self {p : Char → Bool} {c : Char} {l : List Char}
    (h : (c :: l).dropWhile p = c :: l) : p c = false := by
  rw [List.dropWhile_cons] at h
  by_cases hp : p c = true
  · rw [if_pos hp] at h
    have hlen := congrArg List.length h
    have hle := (List.dropWhile_sublist (l := l) p).length_le
    simp at hlen
    omega
  · simpa using hp

theorem capFirst_ne_nil {u : List Char} (h : u ≠ []) : capFirst u ≠ [] := by
  cases u with
  | nil => exact absurd rfl h
  | cons c t => simp [capFirst]

theorem capFirst_idem (u : List Char) : capFirst (capFirst u) = capFirst u := by
  cases u with
  | nil => rfl
  | cons c t => simp [capFirst, asciiUpper_idem]

theorem jsTrim_capFirst_jsTrim {v : List Char} (h : jsTrim v ≠ []) :
    jsTrim (capFirst (jsTrim v)) = capFirst (jsTrim v) := by
  rcases hu : jsTrim v with _ | ⟨c, t⟩
  · exact absurd hu h
  have hc : jsWs c = false := jsTrim_head_false hu
  have hfixrev : (c :: t).reverse.dropWhile jsWs = (c :: t).reverse := by
    rw [← hu]; exact jsTrim_reverse_dropWhile_fix v
  have hcap : capFirst (c :: t) = asciiUpper c :: t := rfl
  rw [hcap]
  refine jsTrim_eq_self_of ?_ ?_
  · exact List.dropWhile_cons_of_neg (by simp [jsWs_asciiUpper, hc])
  · cases t with
    | nil => exact List.dropWhile_cons_of_neg (by simp [jsWs_asciiUpper, hc])
    | cons t0 t1 =>
      rcases hrev : (t0 :: t1).reverse with _ | ⟨d, rest⟩
      · exact absurd (congrArg List.length hrev) (by simp)
      have h1 : (c :: t0 :: t1).reverse = d :: (rest ++ [c]) := by
        rw [List.reverse_cons, hrev]
        simp
      rw [h1] at hfixrev
      have hd : jsWs d = false := dropWhile_cons_self hfixrev
      have h2 : (asciiUpper c :: t0 :: t1).reverse = d :: (rest ++ [asciiUpper c]) := by
        rw [List.reverse_cons, hrev]
        simp
      rw [h2]
      exact List.dropWhile_cons_of_neg (by simp [hd])

theorem mem_normalizeTasks {t : List Char} {l : List (List Char)} :
    t ∈ normalizeTasks l ↔ ∃ u ∈ l, jsTrim u ≠ [] ∧ t = capFirst (jsTrim u) := by
  unfold normalizeTasks
  constructor
  · intro h
    rcases List.mem_map.mp h with ⟨v, hv, hvt⟩
    rcases List.mem_filter.mp hv with ⟨hv1, hv2⟩
    rcases List.mem_map.mp hv1 with ⟨u, hu, huv⟩
    refine ⟨u, hu, ?_, ?_⟩
    · rw [huv]
      exact (utf16Len_pos_iff _).mp (by simpa using hv2)
    · rw [← hvt, huv]
  · rintro ⟨u, hu, hne, rfl⟩
    refine List.mem_map.mpr ⟨jsTrim u, List.mem_filter.mpr ⟨List.mem_map.mpr ⟨u, hu, rfl⟩, ?_⟩, rfl⟩
    simpa using (utf16Len_pos_iff _).mpr hne

theorem normalizeTasks_props {t : List Char} {l : List (List Char)}
    (h : t ∈ normalizeTasks l) : jsTrim t = t ∧ t ≠ [] ∧ capFirst t = t := by
  rcases mem_normalizeTasks.mp h with ⟨u, _, hne, rfl⟩
  exact ⟨jsTrim_capFirst_jsTrim hne, capFirst_ne_nil hne, capFirst_idem _⟩

theorem normalizeTasks_idem (l : List (List Char)) :
    normalizeTasks (normalizeTasks l) = normalizeTasks l := by
  have h1 : (normalizeTasks l).map jsTrim = normalizeTasks l := by
    rw [List.map_congr_left (g := id) (fun t ht => (normalizeTasks_props ht).1)]
    exact List.map_id _
  have h2 : (normalizeTasks l).filter (fun t => 0 < utf16Len t) = normalizeTasks l :=
    List.filter_eq_self.mpr (fun t ht => by
      simpa using (utf16Len_pos_iff t).mpr (normalizeTasks_props ht).2.1)
  have h3 : (normalizeTasks l).map capFirst = normalizeTasks l := by
    rw [List.map_congr_left (g := id) (fun t ht => (normalizeTasks_props ht).2.2)]
    exact List.map_id _
  calc normalizeTasks (normalizeTasks l)
      = (((normalizeTasks l).map jsTrim).filter (fun t => 0 < utf16Len t)).map capFirst := rfl
    _ = normalizeTasks l := by rw [h1, h2, h3]

theorem normalizeTasks_ne_nil {l : List (List Char)} {u : List Char}
    (hu : u ∈ l) (hne : jsTrim u ≠ []) : normalizeTasks l ≠ [] :=
  List.ne_nil_of_mem (mem_normalizeTasks.mpr ⟨u, hu, hne, rfl⟩)

/-! ### Counting the non-blank segments of the `\n+` split -/

/-- Number of non-blank `\n+`-segments of the input; `seen` records whether the
current partial segment already holds a non-whitespace character. -/
def nbGo : Bool → List Char → Nat
  | seen, [] => if seen then 1 else 0
  | seen, c :: cs =>
    if c = '\n' then (if seen then 1 else 0) + nbGo false cs
    else nbGo (seen || !jsWs c) cs

theorem nbGo_le_true (l : List Char) : ∀ b, nbGo b l ≤ nbGo true l := by
  induction l with
  | nil => intro b; cases b <;> simp [nbGo]
  | cons c cs ih =>
    intro b
    by_cases hc : c = '\n'
    · subst hc
      simp only [nbGo, if_pos]
      cases b <;> simp
    · simp only [nbGo, if_neg hc]
      have h1 := ih (b || !jsWs c)
      have h2 := ih true
      simpa using h1.trans (by simpa using Nat.le_refl (nbGo true cs))

theorem nbGo_true_pos (l : List Char) : 1 ≤ nbGo true l := by
  induction l with
  | nil => simp [nbGo]
  | cons c cs ih =>
    by_cases hc : c = '\n'
    · subst hc; simp [nbGo]
    · simpa [nbGo, hc] using ih

theorem nbGo_false_le (l : List Char) (b : Bool) : nbGo false l ≤ nbGo b l := by
  cases b
  · exact Nat.le_refl _
  · exact nbGo_le_true l false

theorem nbGo_pos {l : List Char} (h : ∃ c ∈ l, jsWs c = false) (b : Bool) :
    1 ≤ nbGo b l := by
  induction l generalizing b with
  | nil => simp at h
  | cons c cs ih =>
    rcases h with ⟨d, hd, hdw⟩
    rcases List.mem_cons.mp hd with rfl | hdcs
    · have hdn : ¬ d = '\n' := by
        intro h2
        rw [h2] at hdw
        simp [jsWs] at hdw
      simp only [nbGo, if_neg hdn, hdw]
      simpa using nbGo_true_pos cs
    · by_cases hc : c = '\n'
      · subst hc
        simp only [nbGo, if_pos]
        have := ih ⟨d, hdcs, hdw⟩ false
        omega
      · simp only [nbGo, if_neg hc]
        exact ih ⟨d, hdcs, hdw⟩ _

theorem nbGo_append_nl (a b : List Char) : ∀ seen,
    nbGo seen (a ++ '\n' :: b) = nbGo seen a + nbGo false b := by
  induction a with
  | nil => intro seen; simp [nbGo]
  | cons c a' ih =>
    intro seen
    by_cases hc : c = '\n'
    · subst hc
      have h1 : nbGo seen ('\n' :: (a' ++ '\n' :: b)) =
          (if seen then 1 else 0) + nbGo false (a' ++ '\n' :: b) := by simp [nbGo]
      have h2 : nbGo seen ('\n' :: a') = (if seen then 1 else 0) + nbGo false a' := by
        simp [nbGo]
      rw [List.cons_append, h1, ih, h2]
      omega
    · have h1 : nbGo seen (c :: (a' ++ '\n' :: b)) =
          nbGo (seen || !jsWs c) (a' ++ '\n' :: b) := by simp [nbGo, hc]
      have h2 : nbGo seen (c :: a') = nbGo (seen || !jsWs c) a' := by simp [nbGo, hc]
      rw [List.cons_append, h1, ih, h2]

theorem nbGo_cons_le {c : Char} (hc : ¬ c = '\n') (cs : List Char) :
    nbGo false cs ≤ nbGo false (c :: cs) := by
  simp only [nbGo, if_neg hc]
  exact nbGo_false_le cs _

theorem any_reverse_eq (l : List Char) (p : Char → Bool) :
    l.reverse.any p = l.any p := by
  simp [List.any_eq_true]

theorem nonblank_iff_any (l : List Char) :
    0 < utf16Len (jsTrim l) ↔ l.any (fun c => !jsWs c) = true := by
  rw [utf16Len_pos_iff, jsTrim_ne_nil_iff]
  simp [List.any_eq_true]

theorem splitNlGo_filter_length :
    ∀ (cs : List Char) (inRun : Bool) (acc : List Char), (inRun = true → acc = []) →
    ((splitNlGo inRun acc cs).filter (fun l => 0 < utf16Len (jsTrim l))).length =
      nbGo (acc.any (fun c => !jsWs c)) cs := by
  intro cs
  induction cs with
  | nil =>
    intro inRun acc _
    simp only [splitNlGo, List.filter, nbGo]
    by_cases h : acc.any (fun c => !jsWs c) = true
    · rw [if_pos h]
      have : decide (0 < utf16Len (jsTrim acc.reverse)) = true := by
        rw [decide_eq_true_eq, nonblank_iff_any, any_reverse_eq]
        exact h
      simp [this]
    · rw [if_neg h]
      have : decide (0 < utf16Len (jsTrim acc.reverse)) = false := by
        rw [decide_eq_false_iff_not, nonblank_iff_any, any_reverse_eq]
        simpa using h
      simp [this]
  | cons c cs ih =>
    intro inRun acc hacc
    by_cases hc : c = '\n'
    · subst hc
      cases inRun with
      | true =>
        rw [hacc rfl]
        simp only [splitNlGo, if_pos]
        have := ih true [] (fun _ => rfl)
        simp only [List.any_nil] at this ⊢
        rw [this]
        simp [nbGo]
      | false =>
        simp only [splitNlGo, if_pos]
        have hrec := ih true [] (fun _ => rfl)
        simp only [List.any_nil] at hrec
        simp only [nbGo, if_pos]
        by_cases h : acc.any (fun c => !jsWs c) = true
        · have hdec : decide (0 < utf16Len (jsTrim acc.reverse)) = true := by
            rw [decide_eq_true_eq, nonblank_iff_any, any_reverse_eq]
            exact h
          simp only [List.filter, hdec, List.length_cons, hrec, h, if_pos]
          omega
        · have hdec : decide (0 < utf16Len (jsTrim acc.reverse)) = false := by
            rw [decide_eq_false_iff_not, nonblank_iff_any, any_reverse_eq]
            simpa using h
          simp only [List.filter, hdec, hrec]
          rw [if_neg h]
          omega
    · simp only [splitNlGo, if_neg hc, nbGo]
      have := ih false (c :: acc) (by simp)
      rw [this]
      simp only [List.any_cons]
      rw [Bool.or_comm]

theorem nonBlankLines_length (p : List Char) :
    (nonBlankLines p).length = nbGo false p := by
  have := splitNlGo_filter_length p false [] (by simp)
  simpa [nonBlankLines, splitNl] using this

/-! ### Structure of the bullet/numbered matchers and the scan bound -/

theorem scanGo_skip (m : List Char → Option (List Char × List Char)) :
    ∀ (a b : List Char), scanGo m a.length (a ++ b) = scanGo m 0 b := by
  intro a
  induction a with
  | nil => intro b; rfl
  | cons c a' ih =>
    intro b
    have : scanGo m (a'.length + 1) (c :: (a' ++ b)) = scanGo m a'.length (a' ++ b) := rfl
    simpa [this] using ih b

/-- Structural specification of a match attempt: on success the input splits
as consumed-prefix ++ rest, the consumed prefix holds a non-whitespace
character (the marker), and the rest is empty or starts with a newline. -/
def matcherSpec (m : List Char → Option (List Char × List Char)) : Prop :=
  ∀ cs cap rest, m cs = some (cap, rest) →
    (∃ pre, cs = pre ++ rest ∧ ∃ ch ∈ pre, jsWs ch = false) ∧
      (rest = [] ∨ ∃ r', rest = '\n' :: r')

theorem afterMarkerCap_pos {r2 : List Char} {h0 : Char} {t0 : List Char}
    (hdw : r2.dropWhile jsWs = h0 :: t0) :
    afterMarkerCap r2 = some ((h0 :: t0).takeWhile (fun c => !(c == '\n')),
      (h0 :: t0).dropWhile (fun c => !(c == '\n'))) := by
  unfold afterMarkerCap
  rw [hdw]

theorem afterMarkerCap_allWs {r2 : List Char} (hdw : r2.dropWhile jsWs = [])
    (hp : ¬ ((r2.reverse.dropWhile (fun c => c == '\n')).reverse).isEmpty = true) :
    afterMarkerCap r2 = some
      ((r2.drop (((r2.reverse.dropWhile (fun c => c == '\n')).reverse).length - 1)).takeWhile
        (fun c => !(c == '\n')),
       r2.drop ((r2.reverse.dropWhile (fun c => c == '\n')).reverse).length) := by
  unfold afterMarkerCap
  rw [hdw]
  simp only []
  rw [if_neg hp]

theorem afterMarkerCap_allWs_none {r2 : List Char} (hdw : r2.dropWhile jsWs = [])
    (hp : ((r2.reverse.dropWhile (fun c => c == '\n')).reverse).isEmpty = true) :
    afterMarkerCap r2 = none := by
  unfold afterMarkerCap
  rw [hdw]
  simp only []
  rw [if_pos hp]

theorem afterMarkerCap_spec {r2 cap rest : List Char}
    (h : afterMarkerCap r2 = some (cap, rest)) :
    (∃ pre2, r2 = pre2 ++ rest) ∧ (rest = [] ∨ ∃ r', rest = '\n' :: r') := by
  cases hdw : r2.dropWhile jsWs with
  | nil =>
    by_cases hp : ((r2.reverse.dropWhile (fun c => c == '\n')).reverse).isEmpty = true
    · rw [afterMarkerCap_allWs_none hdw hp] at h
      exact absurd h (by simp)
    · rw [afterMarkerCap_allWs hdw hp] at h
      have hrest : rest =
          r2.drop ((r2.reverse.dropWhile (fun c => c == '\n')).reverse).length := by
        have h2 := (Option.some.injEq _ _).mp h
        exact ((Prod.mk.injEq _ _ _ _).mp h2).2.symm
      have hsplit := congrArg List.reverse
        (List.takeWhile_append_dropWhile (fun c => c == '\n') r2.reverse)
      rw [List.reverse_append, List.reverse_reverse] at hsplit
      have hdropT : rest = (r2.reverse.takeWhile (fun c => c == '\n')).reverse := by
        rw [hrest]
        conv_lhs => rw [← hsplit]
        simp
      refine ⟨⟨r2.take ((r2.reverse.dropWhile (fun c => c == '\n')).reverse).length, by
        rw [hrest, List.take_append_drop]⟩, ?_⟩
      cases hr : rest with
      | nil => exact Or.inl rfl
      | cons d t =>
        refine Or.inr ⟨t, ?_⟩
        have hd : d ∈ (r2.reverse.takeWhile (fun c => c == '\n')).reverse := by
          rw [← hdropT, hr]
          simp
        have hd2 : d ∈ r2.reverse.takeWhile (fun c => c == '\n') := List.mem_reverse.mp hd
        have h3 := List.mem_takeWhile_imp hd2
        have h4 : d = '\n' := by simpa using h3
        rw [h4]
  | cons h0 t0 =>
    rw [afterMarkerCap_pos hdw] at h
    have h2 := (Option.some.injEq _ _).mp h
    have hrest : rest = (h0 :: t0).dropWhile (fun c => !(c == '\n')) :=
      ((Prod.mk.injEq _ _ _ _).mp h2).2.symm
    constructor
    · have h5 : r2.takeWhile jsWs ++ (h0 :: t0) = r2 := by
        conv_rhs => rw [← List.takeWhile_append_dropWhile jsWs r2]
        rw [hdw]
      have h6 : (h0 :: t0).takeWhile (fun c => !(c == '\n')) ++ rest = h0 :: t0 := by
        rw [hrest]
        exact List.takeWhile_append_dropWhile _ _
      refine ⟨r2.takeWhile jsWs ++ (h0 :: t0).takeWhile (fun c => !(c == '\n')), ?_⟩
      rw [List.append_assoc, h6, h5]
    · cases hr : rest with
      | nil => exact Or.inl rfl
      | cons d t =>
        refine Or.inr ⟨t, ?_⟩
        rw [hr] at hrest
        have h7 := dropWhile_cons_false (p := fun c => !(c == '\n')) hrest.symm
        have h8 : d = '\n' := by simpa using h7
        rw [h8]

theorem bulletChars_not_ws : ∀ b ∈ bulletChars, jsWs b = false := by decide

theorem digit_not_ws {c : Char} (h : c.isDigit = true) : jsWs c = false := by
  simp only [Char.isDigit] at h
  rw [Bool.and_eq_true, decide_eq_true_eq, decide_eq_true_eq] at h
  obtain ⟨h1, h2⟩ := h
  have n1 : (48 : Nat) ≤ c.toNat := h1
  have n2 : c.toNat ≤ 57 := h2
  simp only [jsWs, Bool.or_eq_false_iff, decide_eq_false_iff_not, Bool.and_eq_false_iff]
  omega

theorem ciChar_S_not_ws {c : Char} (h : ciChar 'S' c = true) : jsWs c = false := by
  simp only [ciChar, Bool.or_eq_true, decide_eq_true_eq] at h
  rcases h with (h | h) | h <;> subst h <;> decide

theorem ciPref_decomp : ∀ (pat s r : List Char), ciPref pat s = some r →
    ∃ m0, s = m0 ++ r := by
  intro pat
  induction pat with
  | nil =>
    intro s r h
    simp only [ciPref, Option.some.injEq] at h
    exact ⟨[], by simp [h]⟩
  | cons p ps ih =>
    intro s r h
    cases s with
    | nil => simp [ciPref] at h
    | cons c cs =>
      simp only [ciPref] at h
      by_cases hci : ciChar p c = true
      · rw [if_pos hci] at h
        obtain ⟨m0, hm⟩ := ih cs r h
        exact ⟨c :: m0, by simp [hm]⟩
      · rw [if_neg hci] at h
        exact absurd h (by simp)

theorem ciPref_cons {p : Char} {ps s r : List Char} (h : ciPref (p :: ps) s = some r) :
    ∃ c s', s = c :: s' ∧ ciChar p c = true ∧ ciPref ps s' = some r := by
  cases s with
  | nil => simp [ciPref] at h
  | cons c cs =>
    simp only [ciPref] at h
    by_cases hci : ciChar p c = true
    · rw [if_pos hci] at h
      exact ⟨c, cs, rfl, hci, h⟩
    · rw [if_neg hci] at h
      exact absurd h (by simp)

theorem bulletMatch_nil {cs : List Char} (hdw : cs.dropWhile jsWs = []) :
    bulletMatchAfterNl cs = none := by
  unfold bulletMatchAfterNl
  rw [hdw]

theorem bulletMatch_cons {cs : List Char} {b : Char} {r2 : List Char}
    (hdw : cs.dropWhile jsWs = b :: r2) :
    bulletMatchAfterNl cs = if b ∈ bulletChars then afterMarkerCap r2 else none := by
  unfold bulletMatchAfterNl
  rw [hdw]

theorem bulletMatch_spec : matcherSpec bulletMatchAfterNl := by
  intro cs cap rest h
  cases hdw : cs.dropWhile jsWs with
  | nil =>
    rw [bulletMatch_nil hdw] at h
    exact absurd h (by simp)
  | cons b r2 =>
    rw [bulletMatch_cons hdw] at h
    by_cases hb : b ∈ bulletChars
    · rw [if_pos hb] at h
      obtain ⟨⟨pre2, hpre2⟩, hrest⟩ := afterMarkerCap_spec h
      have h5 : cs.takeWhile jsWs ++ (b :: r2) = cs := by
        conv_rhs => rw [← List.takeWhile_append_dropWhile jsWs cs]
        rw [hdw]
      refine ⟨⟨cs.takeWhile jsWs ++ b :: pre2, ?_, ⟨b, ?_, bulletChars_not_ws b hb⟩⟩, hrest⟩
      · conv_lhs => rw [← h5]
        rw [hpre2]
        simp
      · simp
    · rw [if_neg hb] at h
      exact absurd h (by simp)

theorem stepTailCap_decomp {r2d cap rest : List Char}
    (h : stepTailCap r2d = some (cap, rest)) :
    (∃ pre2, r2d = pre2 ++ rest) ∧ (rest = [] ∨ ∃ r', rest = '\n' :: r') := by
  unfold stepTailCap at h
  split at h
  · rename_i r3
    cases hc1 : afterMarkerCap r3 with
    | some v =>
      rw [hc1] at h
      obtain rfl : v = (cap, rest) := by simpa using h
      obtain ⟨⟨pre2, hpre2⟩, hrest⟩ := afterMarkerCap_spec hc1
      exact ⟨⟨':' :: pre2, by simp [hpre2]⟩, hrest⟩
    | none =>
      rw [hc1] at h
      simp only [Option.none_orElse] at h
      exact afterMarkerCap_spec h
  · exact afterMarkerCap_spec h

theorem alt1Cap_decomp {r1 cap rest : List Char} (h : alt1Cap r1 = some (cap, rest)) :
    (∃ pre1, r1 = pre1 ++ rest ∧ ∃ ch ∈ pre1, jsWs ch = false) ∧
      (rest = [] ∨ ∃ r', rest = '\n' :: r') := by
  unfold alt1Cap at h
  by_cases hds : (r1.takeWhile Char.isDigit).isEmpty = true
  · rw [if_pos hds] at h
    exact absurd h (by simp)
  · rw [if_neg hds] at h
    split at h
    · rename_i c rest' heq
      by_cases hcd : c = '.' ∨ c = ')'
      · rw [if_pos hcd] at h
        obtain ⟨⟨pre2, hpre2⟩, hrest⟩ := afterMarkerCap_spec h
        obtain ⟨d, hT⟩ : ∃ d t, r1.takeWhile Char.isDigit = d :: t := by
          cases hT : r1.takeWhile Char.isDigit with
          | nil => rw [hT] at hds; simp at hds
          | cons d t => exact ⟨d, t, rfl⟩
        obtain ⟨t, hT⟩ := hT
        have hdmem : d ∈ r1.takeWhile Char.isDigit := by rw [hT]; simp
        have hdd : d.isDigit = true := List.mem_takeWhile_imp hdmem
        have hr1 : r1.takeWhile Char.isDigit ++ (c :: rest') = r1 := by
          conv_rhs => rw [← List.takeWhile_append_dropWhile Char.isDigit r1]
          rw [heq]
        refine ⟨⟨r1.takeWhile Char.isDigit ++ c :: pre2, ?_, ⟨d, ?_, digit_not_ws hdd⟩⟩,
          hrest⟩
        · conv_lhs => rw [← hr1]
          rw [hpre2]
          simp
        · rw [hT]
          simp
      · rw [if_neg hcd] at h
        exact absurd h (by simp)
    · exact absurd h (by simp)

theorem stepMarkerCap_decomp {r1 cap rest : List Char}
    (h : stepMarkerCap r1 = some (cap, rest)) :
    (∃ pre1, r1 = pre1 ++ rest ∧ ∃ ch ∈ pre1, jsWs ch = false) ∧
      (rest = [] ∨ ∃ r', rest = '\n' :: r') := by
  unfold stepMarkerCap at h
  split at h
  · exact absurd h (by simp)
  · rename_i rAfter heq
    obtain ⟨c0, s', hr1, hci, hcp'⟩ := ciPref_cons heq
    obtain ⟨m1, hm1⟩ := ciPref_decomp _ _ _ hcp'
    have hc0 : jsWs c0 = false := ciChar_S_not_ws hci
    have hra : rAfter.takeWhile Char.isDigit ++ rAfter.dropWhile Char.isDigit = rAfter :=
      List.takeWhile_append_dropWhile _ _
    by_cases hds : (rAfter.takeWhile Char.isDigit).isEmpty = true
    · rw [if_pos hds] at h
      exact absurd h (by simp)
    · rw [if_neg hds] at h
      cases hst : stepTailCap (rAfter.dropWhile Char.isDigit) with
      | some v =>
        rw [hst] at h
        obtain rfl : v = (cap, rest) := by simpa using h
        obtain ⟨⟨pre2, hpre2⟩, hrest⟩ := stepTailCap_decomp hst
        refine ⟨⟨c0 :: m1 ++ rAfter.takeWhile Char.isDigit ++ pre2, ?_,
          ⟨c0, by simp, hc0⟩⟩, hrest⟩
        rw [hr1, hm1]
        conv_lhs => rw [← hra]
        rw [hpre2]
        simp
      | none =>
        rw [hst] at h
        simp only [Option.none_orElse] at h
        by_cases h2l : 2 ≤ (rAfter.takeWhile Char.isDigit).length
        · rw [if_pos h2l] at h
          obtain ⟨⟨pre2, hpre2⟩, hrest⟩ := afterMarkerCap_spec h
          have htk : (rAfter.takeWhile Char.isDigit).take
              ((rAfter.takeWhile Char.isDigit).length - 1) ++
              ((rAfter.takeWhile Char.isDigit).drop
                ((rAfter.takeWhile Char.isDigit).length - 1) ++
                rAfter.dropWhile Char.isDigit) = rAfter := by
            rw [← List.append_assoc, List.take_append_drop]
            exact hra
          refine ⟨⟨c0 :: m1 ++ (rAfter.takeWhile Char.isDigit).take
            ((rAfter.takeWhile Char.isDigit).length - 1) ++ pre2, ?_,
            ⟨c0, by simp, hc0⟩⟩, hrest⟩
          rw [hr1, hm1]
          conv_lhs => rw [← htk]
          rw [hpre2]
          simp
        · rw [if_neg h2l] at h
          exact absurd h (by simp)

theorem numberedMatch_nil {cs : List Char} (hdw : cs.dropWhile jsWs = []) :
    numberedMatchAfterNl cs = none := by
  unfold numberedMatchAfterNl
  rw [hdw]

theorem numberedMatch_cons {cs : List Char} {r1h : Char} {r1t : List Char}
    (hdw : cs.dropWhile jsWs = r1h :: r1t) :
    numberedMatchAfterNl cs = (alt1Cap (r1h :: r1t) <|> stepMarkerCap (r1h :: r1t)) := by
  unfold numberedMatchAfterNl
  rw [hdw]

theorem numberedMatch_spec : matcherSpec numberedMatchAfterNl := by
  intro cs cap rest h
  cases hdw : cs.dropWhile jsWs with
  | nil =>
    rw [numberedMatch_nil hdw] at h
    exact absurd h (by simp)
  | cons r1h r1t =>
    rw [numberedMatch_cons hdw] at h
    have h5 : cs.takeWhile jsWs ++ (r1h :: r1t) = cs := by
      conv_rhs => rw [← List.takeWhile_append_dropWhile jsWs cs]
      rw [hdw]
    have hcompose : (∃ pre1, r1h :: r1t = pre1 ++ rest ∧ ∃ ch ∈ pre1, jsWs ch = false) ∧
        (rest = [] ∨ ∃ r', rest = '\n' :: r') →
        (∃ pre, cs = pre ++ rest ∧ ∃ ch ∈ pre, jsWs ch = false) ∧
        (rest = [] ∨ ∃ r', rest = '\n' :: r') := by
      rintro ⟨⟨pre1, hpre1, ⟨ch, hch, hchw⟩⟩, hrest⟩
      refine ⟨⟨cs.takeWhile jsWs ++ pre1, ?_, ⟨ch, by simp [hch], hchw⟩⟩, hrest⟩
      conv_lhs => rw [← h5]
      rw [hpre1]
      simp
    cases ha : alt1Cap (r1h :: r1t) with
    | some v =>
      rw [ha] at h
      obtain rfl : v = (cap, rest) := by simpa using h
      exact hcompose (alt1Cap_decomp ha)
    | none =>
      rw [ha] at h
      simp only [Option.none_orElse] at h
      exact hcompose (stepMarkerCap_decomp h)

theorem scanGo_length_le_nb {m : List Char → Option (List Char × List Char)}
    (hm : matcherSpec m) : ∀ s, (scanGo m 0 s).length ≤ nbGo false s := by
  suffices H : ∀ n s, s.length ≤ n → (scanGo m 0 s).length ≤ nbGo false s by
    exact fun s => H s.length s (Nat.le_refl _)
  intro n
  induction n with
  | zero =>
    intro s hs
    have hnil : s = [] := List.eq_nil_of_length_eq_zero (Nat.le_zero.mp hs)
    subst hnil
    simp [scanGo, nbGo]
  | succ n ih =>
    intro s hs
    cases s with
    | nil => simp [scanGo, nbGo]
    | cons c cs =>
      have hcs : cs.length ≤ n := by simp at hs; omega
      by_cases hc : c = '\n'
      · subst hc
        have hnb : nbGo false ('\n' :: cs) = nbGo false cs := by simp [nbGo]
        cases hmq : m cs with
        | none =>
          have he : scanGo m 0 ('\n' :: cs) = scanGo m 0 cs := by simp [scanGo, hmq]
          rw [he, hnb]
          exact ih cs hcs
        | some pr =>
          obtain ⟨cap, rest⟩ := pr
          obtain ⟨⟨pre, hpre, ⟨ch, hch, hchw⟩⟩, hrest⟩ := hm cs cap rest hmq
          have hlen : cs.length - rest.length = pre.length := by
            rw [hpre]
            simp
          have h1 : scanGo m 0 ('\n' :: cs) =
              (if 0 < utf16Len (jsTrim cap) then [jsTrim cap] else []) ++
                scanGo m (cs.length - rest.length) cs := by
            simp [scanGo, hmq]
          have he : scanGo m 0 ('\n' :: cs) =
              (if 0 < utf16Len (jsTrim cap) then [jsTrim cap] else []) ++
                scanGo m 0 rest := by
            rw [h1, hlen, hpre, scanGo_skip]
          have hrn : rest.length ≤ n := by
            have hr2 : rest.length ≤ cs.length := by
              rw [hpre]
              simp
            omega
          have ihr := ih rest hrn
          have hpos : 1 ≤ nbGo false pre := nbGo_pos ⟨ch, hch, hchw⟩ false
          have hlen1 : (if 0 < utf16Len (jsTrim cap) then [jsTrim cap] else []).length ≤ 1 := by
            split <;> simp
          rw [he, hnb, List.length_append]
          rcases hrest with rfl | ⟨r', rfl⟩
          · have hz : scanGo m 0 ([] : List Char) = [] := rfl
            rw [hz, hpre, List.append_nil]
            simp only [List.length_nil]
            omega
          · have hnb2 : nbGo false cs = nbGo false pre + nbGo false r' := by
              rw [hpre]
              exact nbGo_append_nl pre r' false
            have hnbr : nbGo false ('\n' :: r') = nbGo false r' := by simp [nbGo]
            rw [hnb2]
            rw [hnbr] at ihr
            omega
      · have he : scanGo m 0 (c :: cs) = scanGo m 0 cs := by simp [scanGo, hc]
        rw [he]
        exact (ih cs hcs).trans (nbGo_cons_le hc cs)

/-! ### Dead code: the bullet/numbered branches are unreachable -/

theorem scan_ge2_imp_lines (p : List Char)
    (h : 2 ≤ (scanGo bulletMatchAfterNl 0 p).length ∨
      2 ≤ (scanGo numberedMatchAfterNl 0 p).length) :
    2 ≤ (nonBlankLines p).length := by
  rw [nonBlankLines_length]
  rcases h with h | h
  · exact h.trans (scanGo_length_le_nb bulletMatch_spec p)
  · exact h.trans (scanGo_length_le_nb numberedMatch_spec p)

theorem fb_eq_nb (p : List Char) : fallbackBreakdown p = fallbackBreakdownNB p := by
  unfold fallbackBreakdown fallbackBreakdownNB
  by_cases hl : 2 ≤ ((nonBlankLines p).map jsTrim).length
  · rw [if_pos hl, if_pos hl]
  · rw [if_neg hl, if_neg hl]
    have hnb : (nonBlankLines p).length < 2 := by
      rw [List.length_map] at hl
      omega
    rw [nonBlankLines_length] at hnb
    have hb := scanGo_length_le_nb bulletMatch_spec p
    have hn := scanGo_length_le_nb numberedMatch_spec p
    rw [if_neg (by omega), if_neg (by omega)]

theorem fb_lines (p : List Char) (h : 2 ≤ (nonBlankLines p).length) :
    fallbackBreakdown p = (nonBlankLines p).map jsTrim := by
  unfold fallbackBreakdown
  rw [if_pos (by rw [List.length_map]; exact h)]

theorem fb_rest (p : List Char) (h : (nonBlankLines p).length < 2) :
    fallbackBreakdown p = restOfPipeline p := by
  rw [fb_eq_nb]
  unfold fallbackBreakdownNB
  rw [if_neg (by rw [List.length_map]; omega)]

/-! ### The separator and keyword passes on inputs without periods/newlines -/

theorem findSepGo_none {alts : List (List Char)} :
    ∀ (s pre : List Char), (∀ c ∈ s, ¬(c = '.' ∨ c = '\n')) →
    findSepGo alts pre s = none := by
  intro s
  induction s with
  | nil => intro pre _; rfl
  | cons c cs ih =>
    intro pre h
    have hc : ¬(c = '.' ∨ c = '\n') := h c (by simp)
    simp only [findSepGo, if_neg hc]
    exact ih (c :: pre) (fun d hd => h d (by simp [hd]))

theorem findSep_none {alts : List (List Char)} {s : List Char}
    (h : ∀ c ∈ s, ¬(c = '.' ∨ c = '\n')) : findSep alts s = none :=
  findSepGo_none s [] h

theorem sepStep_id {st : List (List Char) × List Char} {alts : List (List Char)}
    (h : findSep alts st.2 = none) : sepStep st alts = st := by
  unfold sepStep
  rw [h]

theorem sepFold_nodot : ∀ (L : List (List (List Char))) (ts : List (List Char)) (p : List Char),
    (∀ c ∈ p, ¬(c = '.' ∨ c = '\n')) → L.foldl sepStep (ts, p) = (ts, p) := by
  intro L
  induction L with
  | nil => intro ts p _; rfl
  | cons alts L' ih =>
    intro ts p h
    have h1 : sepStep (ts, p) alts = (ts, p) := sepStep_id (findSep_none h)
    simp only [List.foldl_cons, h1]
    exact ih ts p h

theorem sepPass_nodot {p : List Char} (h : ∀ c ∈ p, ¬(c = '.' ∨ c = '\n')) :
    sepPass p = ([], p) :=
  sepFold_nodot sepSeparators [] p h

theorem kwScanGo_nodot : ∀ (s : List Char) (ts : List (List Char)) (k : Nat),
    (∀ c ∈ s, ¬(c = '.' ∨ c = '\n')) → kwScanGo ts k s = ts := by
  intro s
  induction s with
  | nil => intro ts k _; cases k <;> rfl
  | cons c cs ih =>
    intro ts k h
    have hc : ¬(c = '.' ∨ c = '\n') := h c (by simp)
    have hcs : ∀ d ∈ cs, ¬(d = '.' ∨ d = '\n') := fun d hd => h d (by simp [hd])
    cases k with
    | zero =>
      simp only [kwScanGo, if_neg hc]
      exact ih ts 0 hcs
    | succ k' =>
      have he : kwScanGo ts (k' + 1) (c :: cs) = kwScanGo ts k' cs := rfl
      rw [he]
      exact ih ts k' hcs

/-! ### Invariants of the collected tasks and the final pipeline -/

/-- A task as pushed by the separator/keyword/tail passes: non-empty and
already trimmed. -/
def goodTask (t : List Char) : Prop := t ≠ [] ∧ jsTrim t = t

theorem goodTask_of_trim {v : List Char} (h : jsTrim v ≠ []) : goodTask (jsTrim v) :=
  ⟨h, jsTrim_idem v⟩

theorem sepStep_good {st : List (List Char) × List Char} {alts : List (List Char)}
    (h : ∀ t ∈ st.1, goodTask t) : ∀ t ∈ (sepStep st alts).1, goodTask t := by
  unfold sepStep
  cases hf : findSep alts st.2 with
  | none => exact h
  | some pr =>
    obtain ⟨before, after⟩ := pr
    by_cases hc : jsTrim before ≠ [] ∧ jsTrim before ∉ st.1 ∧ 10 < utf16Len (jsTrim before)
    · intro t ht
      simp only [if_pos hc] at ht
      rcases List.mem_append.mp ht with h1 | h1
      · exact h t h1
      · have : t = jsTrim before := by simpa using h1
        rw [this]
        exact goodTask_of_trim hc.1
    · intro t ht
      simp only [if_neg hc] at ht
      exact h t ht

theorem sepFold_good : ∀ (L : List (List (List Char))) (st : List (List Char) × List Char),
    (∀ t ∈ st.1, goodTask t) → ∀ t ∈ (L.foldl sepStep st).1, goodTask t := by
  intro L
  induction L with
  | nil => intro st h; exact h
  | cons alts L' ih =>
    intro st h
    simp only [List.foldl_cons]
    exact ih (sepStep st alts) (sepStep_good h)

theorem sepPass_good (p : List Char) : ∀ t ∈ (sepPass p).1, goodTask t :=
  sepFold_good sepSeparators ([], p) (by simp)

theorem kwScanGo_good : ∀ (s : List Char) (ts : List (List Char)) (k : Nat),
    (∀ t ∈ ts, goodTask t) → ∀ t ∈ kwScanGo ts k s, goodTask t := by
  intro s
  induction s with
  | nil => intro ts k h; cases k <;> exact h
  | cons c cs ih =>
    intro ts k h
    cases k with
    | succ k' =>
      have he : kwScanGo ts (k' + 1) (c :: cs) = kwScanGo ts k' cs := rfl
      rw [he]
      exact ih ts k' h
    | zero =>
      by_cases hc : c = '.' ∨ c = '\n'
      · simp only [kwScanGo, if_pos hc]
        cases hkt : kwTail cs with
        | none => exact ih ts 0 h
        | some rest =>
          refine ih _ _ ?_
          intro t ht
          by_cases hcond : jsTrim (uptoDotIncl rest) ≠ [] ∧
              10 < utf16Len (jsTrim (uptoDotIncl rest)) ∧ jsTrim (uptoDotIncl rest) ∉ ts
          · rw [if_pos hcond] at ht
            rcases List.mem_append.mp ht with h1 | h1
            · exact h t h1
            · have : t = jsTrim (uptoDotIncl rest) := by simpa using h1
              rw [this]
              exact goodTask_of_trim hcond.1
          · rw [if_neg hcond] at ht
            exact h t ht
      · simp only [kwScanGo, if_neg hc]
        exact ih ts 0 h

theorem sepKwTasks_good (p : List Char) : ∀ t ∈ sepKwTasks p, goodTask t :=
  kwScanGo_good p (sepPass p).1 0 (sepPass_good p)

theorem afterTailTasks_good (p : List Char) : ∀ t ∈ afterTailTasks p, goodTask t := by
  unfold afterTailTasks
  by_cases hc : jsTrim (sepRemaining p) ≠ [] ∧ 10 < utf16Len (sepRemaining p)
  · intro t ht
    rw [if_pos hc] at ht
    rcases List.mem_append.mp ht with h1 | h1
    · exact sepKwTasks_good p t h1
    · have : t = jsTrim (sepRemaining p) := by simpa using h1
      rw [this]
      exact goodTask_of_trim hc.1
  · intro t ht
    rw [if_neg hc] at ht
    exact sepKwTasks_good p t ht

theorem sentenceTasks_good (p : List Char) : ∀ t ∈ sentenceTasks p, goodTask t := by
  intro t ht
  unfold sentenceTasks at ht
  rcases List.mem_map.mp ht with ⟨s, hs, rfl⟩
  rcases List.mem_filter.mp hs with ⟨_, hlen⟩
  have h15 : 15 < utf16Len (jsTrim s) := by simpa using hlen
  refine goodTask_of_trim ?_
  rw [← utf16Len_pos_iff]
  omega

theorem splitWsGo_witness : ∀ (cs : List Char) (inRun : Bool) (acc : List Char),
    (inRun = true → acc = []) →
    ((∃ c ∈ acc, jsWs c = false) ∨ (∃ c ∈ cs, jsWs c = false)) →
    ∃ w ∈ splitWsGo inRun acc cs, ∃ c ∈ w, jsWs c = false := by
  intro cs
  induction cs with
  | nil =>
    intro inRun acc _ h
    rcases h with ⟨c, hc, hw⟩ | ⟨c, hc, _⟩
    · exact ⟨acc.reverse, by cases inRun <;> simp [splitWsGo], ⟨c, by simpa using hc, hw⟩⟩
    · simp at hc
  | cons d cs ih =>
    intro inRun acc hr h
    by_cases hd : jsWs d = true
    · cases inRun with
      | true =>
        rw [hr rfl] at h
        simp only [splitWsGo, hd, if_pos]
        rcases h with ⟨c, hc, _⟩ | hcs
        · simp at hc
        · obtain ⟨w, hw, hcw⟩ := ih true [] (fun _ => rfl) (Or.inr (by
            rcases hcs with ⟨c, hc, hw2⟩
            rcases List.mem_cons.mp hc with rfl | h3
            · rw [hw2] at hd; simp at hd
            · exact ⟨c, h3, hw2⟩))
          exact ⟨w, hw, hcw⟩
      | false =>
        simp only [splitWsGo, hd, if_pos]
        rcases h with ⟨c, hc, hw2⟩ | ⟨c, hc, hw2⟩
        · exact ⟨acc.reverse, by simp, ⟨c, by simpa using hc, hw2⟩⟩
        · rcases List.mem_cons.mp hc with rfl | h3
          · rw [hw2] at hd
            simp at hd
          · obtain ⟨w, hw, hcw⟩ := ih true [] (fun _ => rfl) (Or.inr ⟨c, h3, hw2⟩)
            exact ⟨w, by simp [hw], hcw⟩
    · have hd2 : jsWs d = false := by simpa using hd
      simp only [splitWsGo, hd2]
      refine ih false (d :: acc) (by simp) ?_
      rcases h with ⟨c, hc, hw2⟩ | ⟨c, hc, hw2⟩
      · exact Or.inl ⟨c, by simp [hc], hw2⟩
      · rcases List.mem_cons.mp hc with rfl | h3
        · exact Or.inl ⟨c, by simp, hw2⟩
        · exact Or.inr ⟨c, h3, hw2⟩

theorem groupWords_cover {csz : Nat} :
    ∀ (ws cur : List (List Char)) (k : Nat) (w : List Char),
    (w ∈ cur ∨ w ∈ ws) → ∃ g ∈ groupWords csz cur k ws, w ∈ g := by
  intro ws
  induction ws with
  | nil =>
    intro cur k w h
    rcases h with h | h
    · have hne : cur.isEmpty = false := by
        cases cur
        · simp at h
        · simp
      refine ⟨cur.reverse, ?_, by simpa using h⟩
      simp [groupWords, hne]
    · simp at h
  | cons w0 ws' ih =>
    intro cur k w h
    cases k with
    | zero =>
      rcases h with h | h
      · exact ⟨cur.reverse, by simp [groupWords], by simpa using h⟩
      · rcases List.mem_cons.mp h with rfl | h2
        · obtain ⟨g, hg, hwg⟩ := ih [w] (csz - 1) w (Or.inl (by simp))
          exact ⟨g, by simp [groupWords, hg], hwg⟩
        · obtain ⟨g, hg, hwg⟩ := ih [w0] (csz - 1) w (Or.inr h2)
          exact ⟨g, by simp [groupWords, hg], hwg⟩
    | succ k' =>
      rcases h with h | h
      · obtain ⟨g, hg, hwg⟩ := ih (w0 :: cur) k' w (Or.inl (by simp [h]))
        exact ⟨g, by simp [groupWords, hg], hwg⟩
      · rcases List.mem_cons.mp h with rfl | h2
        · obtain ⟨g, hg, hwg⟩ := ih (w :: cur) k' w (Or.inl (by simp))
          exact ⟨g, by simp [groupWords, hg], hwg⟩
        · obtain ⟨g, hg, hwg⟩ := ih (w0 :: cur) k' w (Or.inr h2)
          exact ⟨g, by simp [groupWords, hg], hwg⟩

theorem joinSp_mem : ∀ (g : List (List Char)) (w : List Char) (c : Char),
    w ∈ g → c ∈ w → c ∈ joinSp g := by
  intro g
  induction g with
  | nil => intro w c h _; simp at h
  | cons w0 g' ih =>
    intro w c hw hc
    cases g' with
    | nil =>
      have : w = w0 := by simpa using hw
      subst this
      simpa [joinSp] using hc
    | cons g1 g2 =>
      have hj : joinSp (w0 :: g1 :: g2) = w0 ++ ' ' :: joinSp (g1 :: g2) := rfl
      rw [hj]
      rcases List.mem_cons.mp hw with rfl | hw2
      · exact List.mem_append.mpr (Or.inl hc)
      · exact List.mem_append.mpr (Or.inr (List.mem_cons.mpr (Or.inr (ih w c hw2 hc))))

theorem chunkTasks_ne_nil {p : List Char} (h : jsTrim p ≠ []) : chunkTasks p ≠ [] := by
  obtain ⟨c, hc, hw⟩ := (jsTrim_ne_nil_iff p).mp h
  obtain ⟨w, hwmem, c', hc', hw'⟩ :=
    splitWsGo_witness p false [] (by simp) (Or.inr ⟨c, hc, hw⟩)
  obtain ⟨g, hg, hwg⟩ := @groupWords_cover (max 5 ((splitWs p).length / 3))
    (splitWs p) [] (max 5 ((splitWs p).length / 3)) w (Or.inr hwmem)
  have hcj : c' ∈ joinSp g := joinSp_mem g w c' hwg hc'
  have hne : jsTrim (joinSp g) ≠ [] := (jsTrim_ne_nil_iff _).mpr ⟨c', hcj, hw'⟩
  have hmem : joinSp g ∈ chunkTasks p := by
    unfold chunkTasks
    refine List.mem_filter.mpr ⟨List.mem_map.mpr ⟨g, hg, rfl⟩, ?_⟩
    simpa using (utf16Len_pos_iff _).mpr hne
  exact List.ne_nil_of_mem hmem

theorem chunkTasks_trim_ne {p t : List Char} (ht : t ∈ chunkTasks p) : jsTrim t ≠ [] := by
  unfold chunkTasks at ht
  rcases List.mem_filter.mp ht with ⟨_, hlen⟩
  rw [← utf16Len_pos_iff]
  simpa using hlen

theorem preNorm_witness {p : List Char} (h : jsTrim p ≠ []) :
    ∃ u ∈ preNormTasks p, jsTrim u ≠ [] := by
  unfold preNormTasks
  by_cases h1 : (afterTailTasks p).length ≤ 1
  · simp only [if_pos h1]
    by_cases h2 : (sentenceTasks p).length ≤ 1
    · rw [if_pos h2]
      cases hck : chunkTasks p with
      | nil => exact absurd hck (chunkTasks_ne_nil h)
      | cons u us =>
        exact ⟨u, by simp, chunkTasks_trim_ne (by rw [hck]; simp)⟩
    · rw [if_neg h2]
      cases hs : sentenceTasks p with
      | nil => rw [hs] at h2; simp at h2
      | cons u us =>
        have hu : u ∈ sentenceTasks p := by rw [hs]; simp
        obtain ⟨hne, htr⟩ := sentenceTasks_good p u hu
        exact ⟨u, by simp, by rw [htr]; exact hne⟩
  · simp only [if_neg h1]
    cases ha : afterTailTasks p with
    | nil => rw [ha] at h1; simp at h1
    | cons u us =>
      have hu : u ∈ afterTailTasks p := by rw [ha]; simp
      obtain ⟨hne, htr⟩ := afterTailTasks_good p u hu
      exact ⟨u, by simp, by rw [htr]; exact hne⟩

theorem normalize_preNorm_ne {p : List Char} (h : jsTrim p ≠ []) :
    normalizeTasks (preNormTasks p) ≠ [] := by
  obtain ⟨u, hu, hne⟩ := preNorm_witness h
  exact normalizeTasks_ne_nil hu hne

theorem restOfPipeline_len_le5 (p : List Char) : (restOfPipeline p).length ≤ 5 := by
  unfold restOfPipeline
  by_cases h5 : 5 < (normalizeTasks (preNormTasks p)).length
  · simp only [if_pos h5]
    split
    · simp
    · simp [List.length_take]
  · simp only [if_neg h5]
    split
    · simp
    · omega

theorem restOfPipeline_ne_nil (p : List Char) : restOfPipeline p ≠ [] := by
  unfold restOfPipeline
  by_cases h5 : 5 < (normalizeTasks (preNormTasks p)).length
  · simp only [if_pos h5]
    split
    · simp
    · rename_i h0
      intro hc
      rw [hc] at h0
      simp at h0
  · simp only [if_neg h5]
    split
    · simp
    · rename_i h0
      intro hc
      rw [hc] at h0
      simp at h0

theorem restOfPipeline_mem {p t : List Char} (h : t ∈ restOfPipeline p) :
    t = p ∨ t ∈ normalizeTasks (preNormTasks p) := by
  unfold restOfPipeline at h
  by_cases h5 : 5 < (normalizeTasks (preNormTasks p)).length
  · simp only [if_pos h5] at h
    split at h
    · exact Or.inl (by simpa using h)
    · exact Or.inr (List.mem_of_mem_take h)
  · simp only [if_neg h5] at h
    split at h
    · exact Or.inl (by simpa using h)
    · exact Or.inr h

theorem restOfPipeline_eq_of_trim {p : List Char} (h : jsTrim p ≠ []) :
    restOfPipeline p =
      (if 5 < (normalizeTasks (preNormTasks p)).length
       then (normalizeTasks (preNormTasks p)).take 5
       else normalizeTasks (preNormTasks p)) := by
  unfold restOfPipeline
  by_cases h5 : 5 < (normalizeTasks (preNormTasks p)).length
  · simp only [if_pos h5]
    rw [if_neg]
    intro hc
    rw [List.length_take] at hc
    omega
  · simp only [if_neg h5]
    rw [if_neg]
    intro hc
    exact normalize_preNorm_ne h (List.eq_nil_of_length_eq_zero hc)

theorem afterTail_append_of {p : List Char}
    (h : 10 < utf16Len (jsTrim (sepRemaining p))) :
    afterTailTasks p = sepKwTasks p ++ [jsTrim (sepRemaining p)] := by
  unfold afterTailTasks
  rw [if_pos]
  constructor
  · rw [← utf16Len_pos_iff]
    omega
  · have := utf16Len_jsTrim_le (sepRemaining p)
    omega

/-! ### The claims -/

/-- C1 (counterexample): on the empty prompt the decomposer returns the raw
prompt as its only descriptor, whose task is empty after trimming — the
claimed "every returned task non-empty after trimming" fails. -/
theorem C1_counterexample :
    fallbackBreakdownS ("") = [""] ∧ ∃ t ∈ fallbackBreakdown ("".data), jsTrim t = [] :=
  ⟨by decide, ⟨[], by decide, rfl⟩⟩

/-- C1 (amended): for every input the fallback decomposer returns at least one
descriptor; when the input has fewer than 2 non-blank lines the length is at
most 5; and when the input is non-empty after trimming, every returned task is
non-empty after trimming.  (The line-split early return can exceed 5 items,
and a whitespace-only input is returned raw as the single task.) -/
theorem C1_amended : ∀ p : List Char,
    1 ≤ (fallbackBreakdown p).length ∧
    ((nonBlankLines p).length < 2 → (fallbackBreakdown p).length ≤ 5) ∧
    (jsTrim p ≠ [] → ∀ t ∈ fallbackBreakdown p, jsTrim t ≠ []) := by
  intro p
  by_cases hl : 2 ≤ (nonBlankLines p).length
  · rw [fb_lines p hl]
    refine ⟨?_, ?_, ?_⟩
    · rw [List.length_map]
      omega
    · intro h2
      rw [List.length_map]
      omega
    · intro _ t ht
      rcases List.mem_map.mp ht with ⟨l, hlmem, rfl⟩
      rcases List.mem_filter.mp hlmem with ⟨_, hlen⟩
      rw [jsTrim_idem, ← utf16Len_pos_iff]
      simpa using hlen
  · have hl2 : (nonBlankLines p).length < 2 := by omega
    rw [fb_rest p hl2]
    refine ⟨List.length_pos.mpr (restOfPipeline_ne_nil p),
      fun _ => restOfPipeline_len_le5 p, ?_⟩
    intro hp t ht
    rcases restOfPipeline_mem ht with rfl | hmem
    · exact hp
    · obtain ⟨htr, hne, _⟩ := normalizeTasks_props hmem
      rw [htr]
      exact hne

/-- C1 (witness): the amended statement applied at the prompt `hi`. -/
theorem C1_witness :
    1 ≤ (fallbackBreakdown ("hi".data)).length ∧
    (fallbackBreakdown ("hi".data)).length ≤ 5 ∧ jsTrim ("Hi".data) ≠ [] :=
  ⟨(C1_amended ("hi".data)).1, (C1_amended ("hi".data)).2.1 (by decide),
    (C1_amended ("hi".data)).2.2 (by decide) ("Hi".data) (by decide)⟩

/-- C2 (counterexample): a prompt of 8 numbered items, one per line, returns
all 8 lines via the line-split early return — the bound to 5 is bypassed and
the numbered-list strategy never fires. -/
theorem C2_counterexample :
    (fallbackBreakdownS ("1. a\n2. b\n3. c\n4. d\n5. e\n6. f\n7. g\n8. h")).length = 8 := by
  decide

/-- C2 (amended): the output never exceeds 5 descriptors whenever the input
has fewer than 2 non-blank lines (i.e. on the normalization path); with 2 or
more non-blank lines the line-split early return emits all of them, and the
8-numbered-item prompt yields all 8 lines verbatim. -/
theorem C2_amended :
    (∀ p : List Char, (nonBlankLines p).length < 2 → (fallbackBreakdown p).length ≤ 5) ∧
    fallbackBreakdownS ("1. a\n2. b\n3. c\n4. d\n5. e\n6. f\n7. g\n8. h") =
      ["1. a", "2. b", "3. c", "4. d", "5. e", "6. f", "7. g", "8. h"] := by
  constructor
  · intro p h
    rw [fb_rest p h]
    exact restOfPipeline_len_le5 p
  · decide

/-- C2 (witness): the amended bound applied at the prompt `tiny`. -/
theorem C2_witness : (fallbackBreakdown ("tiny".data)).length ≤ 5 :=
  C2_amended.1 ("tiny".data) (by decide)

/-- C3 (counterexample): when the line-split branch fires, tasks are returned
without capitalisation: `buy milk` keeps its lower-case first letter. -/
theorem C3_counterexample :
    ∃ t ∈ fallbackBreakdown ("buy milk\nwalk the dog".data), capFirst t ≠ t :=
  ⟨"buy milk".data, by decide, by decide⟩

/-- C3 (amended): on the normalization path — fewer than 2 non-blank lines and
an input that is non-empty after trimming — every returned task is trimmed,
non-empty, and has its first character uppercased.  (The line/bullet/numbered
early returns skip capitalisation, and a blank input is returned raw.) -/
theorem C3_amended : ∀ p : List Char, (nonBlankLines p).length < 2 → jsTrim p ≠ [] →
    ∀ t ∈ fallbackBreakdown p, jsTrim t = t ∧ t ≠ [] ∧ capFirst t = t := by
  intro p h1 h2 t ht
  rw [fb_rest p h1, restOfPipeline_eq_of_trim h2] at ht
  have hmem : t ∈ normalizeTasks (preNormTasks p) := by
    split at ht
    · exact List.mem_of_mem_take ht
    · exact ht
  exact normalizeTasks_props hmem

/-- C3 (witness): the amended statement applied at the prompt `fix it`. -/
theorem C3_witness :
    jsTrim ("Fix it".data) = "Fix it".data ∧ "Fix it".data ≠ [] ∧
      capFirst ("Fix it".data) = "Fix it".data :=
  C3_amended ("fix it".data) (by decide) (by decide) ("Fix it".data) (by decide)

/-- C4: with at least 2 non-blank lines the output is exactly those lines,
trimmed, in order — and the three-errand example returns its 3 lines. -/
theorem C4_theorem :
    (∀ p : List Char, 2 ≤ (nonBlankLines p).length →
      fallbackBreakdown p = (nonBlankLines p).map jsTrim) ∧
    fallbackBreakdownS ("Buy milk\nWalk the dog\nPay bills") =
      ["Buy milk", "Walk the dog", "Pay bills"] :=
  ⟨fun p h => fb_lines p h, by decide⟩

/-- C4 (witness): the line-split equality applied at the three-errand prompt. -/
theorem C4_witness :
    fallbackBreakdown ("Buy milk\nWalk the dog\nPay bills".data) =
      (nonBlankLines ("Buy milk\nWalk the dog\nPay bills".data)).map jsTrim :=
  C4_theorem.1 ("Buy milk\nWalk the dog\nPay bills".data) (by decide)

/-- C5 (counterexample): after the separator cascade on
`Do the big thing. Then abc␣×9` the unconsumed tail trims to `abc` (trimmed
length 3, not > 10), yet it is appended — the code tests the untrimmed length. -/
theorem C5_counterexample :
    utf16Len (jsTrim (sepRemaining ("Do the big thing. Then abc         ".data))) ≤ 10 ∧
    afterTailTasks ("Do the big thing. Then abc         ".data) =
      sepKwTasks ("Do the big thing. Then abc         ".data) ++
        [jsTrim (sepRemaining ("Do the big thing. Then abc         ".data))] := by
  decide

/-- C5 (amended): the tail is appended iff its trim is non-empty and the RAW
(untrimmed) remainder is longer than 10 units; a trimmed length above 10 is
still sufficient for appending. -/
theorem C5_amended : ∀ p : List Char,
    (afterTailTasks p = sepKwTasks p ++ [jsTrim (sepRemaining p)] ↔
      jsTrim (sepRemaining p) ≠ [] ∧ 10 < utf16Len (sepRemaining p)) ∧
    (10 < utf16Len (jsTrim (sepRemaining p)) →
      afterTailTasks p = sepKwTasks p ++ [jsTrim (sepRemaining p)]) := by
  intro p
  constructor
  · constructor
    · intro h
      by_contra hc
      unfold afterTailTasks at h
      rw [if_neg hc] at h
      have hlen := congrArg List.length h
      simp at hlen
    · intro hc
      unfold afterTailTasks
      rw [if_pos hc]
  · exact fun h => afterTail_append_of h

/-- C5 (witness): the sufficiency direction applied at a 16-character prompt
with no separators, whose whole text is the remainder. -/
theorem C5_witness :
    afterTailTasks ("abcdefghijklmnop".data) =
      sepKwTasks ("abcdefghijklmnop".data) ++
        [jsTrim (sepRemaining ("abcdefghijklmnop".data))] :=
  (C5_amended ("abcdefghijklmnop".data)).2 (by decide)

/-- C6: on the input `hi`, every strategy before the chunk fallback yields
fewer than 2 candidates, the chunk size is max(5, floor(1/3)) = 5, the single
word forms one chunk, and the result is exactly one descriptor `Hi`. -/
theorem C6_theorem :
    (nonBlankLines ("hi".data)).length < 2 ∧
    (scanGo bulletMatchAfterNl 0 ("hi".data)).length < 2 ∧
    (scanGo numberedMatchAfterNl 0 ("hi".data)).length < 2 ∧
    (afterTailTasks ("hi".data)).length ≤ 1 ∧
    (sentenceTasks ("hi".data)).length ≤ 1 ∧
    max 5 ((splitWs ("hi".data)).length / 3) = 5 ∧
    chunkTasks ("hi".data) = ["hi".data] ∧
    fallbackBreakdownS ("hi") = ["Hi"] := by
  decide

/-- C7: normalization (trim, drop empties, uppercase the first character) is
idempotent on whole task lists. -/
theorem C7_theorem : ∀ ts : List (List Char),
    normalizeTasks (normalizeTasks ts) = normalizeTasks ts :=
  normalizeTasks_idem

/-- C8: the bullet and numbered branches are dead code — when either scan
collects 2 or more points the prompt already has 2 or more non-blank lines
(so the line-split branch has already returned), and the decomposer equals
the same function with both branches removed. -/
theorem C8_theorem : ∀ p : List Char,
    ((2 ≤ (scanGo bulletMatchAfterNl 0 p).length ∨
      2 ≤ (scanGo numberedMatchAfterNl 0 p).length) → 2 ≤ (nonBlankLines p).length) ∧
    fallbackBreakdown p = fallbackBreakdownNB p :=
  fun p => ⟨scan_ge2_imp_lines p, fb_eq_nb p⟩

/-- C8 (witness): the implication applied at a prompt with two bullet lines. -/
theorem C8_witness : 2 ≤ (nonBlankLines ("x\n- abcdef\n- ghijkl".data)).length :=
  (C8_theorem ("x\n- abcdef\n- ghijkl".data)).1 (Or.inl (by decide))

/-- C9: every separator and keyword match needs a preceding period or newline,
so on a prompt containing neither, the separator pass collects nothing and
leaves the prompt intact, and the keyword pass adds nothing. -/
theorem C9_theorem : ∀ (p : List Char) (ts : List (List Char)) (k : Nat),
    (∀ c ∈ p, ¬(c = '.' ∨ c = '\n')) →
    (sepPass p).1 = [] ∧ (sepPass p).2 = p ∧ kwScanGo ts k p = ts :=
  fun p ts k h =>
    ⟨by rw [sepPass_nodot h], by rw [sepPass_nodot h], kwScanGo_nodot p ts k h⟩

/-- C9 (witness): applied to a period-free prompt that starts ordinal-like
words and contains `You need to` — none of them creates a boundary. -/
theorem C9_witness :
    (sepPass ("First do one thing then another and also You need to rest".data)).1 = [] ∧
    (sepPass ("First do one thing then another and also You need to rest".data)).2 =
      "First do one thing then another and also You need to rest".data ∧
    kwScanGo [] 0 ("First do one thing then another and also You need to rest".data) = [] :=
  C9_theorem ("First do one thing then another and also You need to rest".data) [] 0
    (by decide)

/-- C10: the output can contain exact duplicates — the remainder tail is
appended with no duplicate check, so a prompt whose tail equals the already
collected before-text yields the same task twice. -/
theorem C10_theorem :
    sepKwTasks ("Check the thing. Then Check the thing.".data) =
      ["Check the thing.".data] ∧
    afterTailTasks ("Check the thing. Then Check the thing.".data) =
      ["Check the thing.".data, "Check the thing.".data] ∧
    fallbackBreakdownS ("Check the thing. Then Check the thing.") =
      ["Check the thing.", "Check the thing."] := by
  decide
